import Mathlib

/-!
# VisionLab — verification of the image-processing core

Shallow embedding of the VisionLab real-time image-processing lab:
the CPU filter algorithms of `src/utils/imageProcessing.ts`, the kernel
presets of `src/constants.ts`, and the WebGL pipeline engine of
`src/utils/webgl.ts` (modelled at the level of texture contents).

Machine numbers: pixel bytes are `ℕ` (a `Uint8ClampedArray` holds integers
in `[0,255]`); intermediate arithmetic, performed by JavaScript in floating
point, is embedded over `ℚ` with the exact decimal constants of the source;
a store into a `Uint8ClampedArray` clamps to `[0,255]` and rounds ties to
even, which is modelled explicitly.
-/

namespace VisionLab

/-- Image data: width, height, and a flat RGBA byte buffer, row-major,
4 bytes per pixel.  The buffer is modelled as a total function from flat
index to byte; indices at `4*width*height` and beyond read as `0`, as a
freshly zero-initialised typed array does. -/
structure ImageData where
  width : ℕ
  height : ℕ
  data : ℕ → ℕ

/-- A convolution kernel as in `src/types.ts` (`constants.ts` presets):
square weight matrix, optional normalisation factor (default 1) and
optional bias (default 0).  Metadata strings are irrelevant to the
algorithms and omitted. -/
structure Kernel where
  matrix : List ℚ
  width : ℕ
  height : ℕ
  factor : Option ℚ := none
  bias : Option ℚ := none

/-- Round a rational to the nearest integer, ties to even — the rounding a
JavaScript engine applies when a (clamped) value is stored into a
`Uint8ClampedArray`. -/
def roundHalfEven (q : ℚ) : ℤ :=
  if q - ⌊q⌋ < 1/2 then ⌊q⌋
  else if 1/2 < q - ⌊q⌋ then ⌊q⌋ + 1
  else if Even ⌊q⌋ then ⌊q⌋ else ⌊q⌋ + 1

/-- Semantics of `dst[o] = v` on a `Uint8ClampedArray`: clamp to `[0,255]`,
then round ties-to-even.  In `convolve` the source additionally writes
`Math.min(255, Math.max(0, v))` before the store; composing that explicit
clamp with the store's own clamp is the same function. -/
def clampStore (q : ℚ) : ℕ :=
  (roundHalfEven (min 255 (max 0 q))).toNat

/-- The accumulation loop of `convolve` (`imageProcessing.ts` lines 23–38)
for one pixel `(x,y)` and one colour channel `ch ∈ {0,1,2}`: sum
`src[((scy*sw+scx)*4)+ch] * weights[cy*side+cx]` over the `side × side`
footprint, skipping taps whose source coordinates fall outside the image. -/
def convolveSum (source : ImageData) (kernel : Kernel) (x y ch : ℕ) : ℚ :=
  let side := kernel.width
  let halfSide := side / 2
  (List.range side).foldl (fun acc (cy : ℕ) =>
    (List.range side).foldl (fun acc2 (cx : ℕ) =>
      let scy : ℤ := (y : ℤ) + cy - halfSide
      let scx : ℤ := (x : ℤ) + cx - halfSide
      if 0 ≤ scy ∧ scy < source.height ∧ 0 ≤ scx ∧ scx < source.width then
        let srcOff := ((scy * source.width + scx) * 4).toNat
        acc2 + (source.data (srcOff + ch) : ℚ) * kernel.matrix.getD (cy * side + cx) 0
      else acc2) acc) 0

/-- Kernel convolution, `convolve` (`imageProcessing.ts` lines 4–48).
Output pixel `(x,y)`,
channel `ch < 3`, is the clamped store of `sum * factor + bias` with
`factor = kernel.factor ?? 1`, `bias = kernel.bias ?? 0`; the alpha byte is
set to 255; bytes beyond the written region keep the fresh array's 0. -/
def convolve (source : ImageData) (kernel : Kernel) : ImageData where
  width := source.width
  height := source.height
  data := fun j =>
    if j < 4 * source.width * source.height then
      let p := j / 4
      let ch := j % 4
      let x := p % source.width
      let y := p / source.width
      if ch = 3 then 255
      else
        clampStore (convolveSum source kernel x y ch * kernel.factor.getD 1
          + kernel.bias.getD 0)
    else 0

/-- The convolution sum as the spec words it, independent of the loop of
`convolve`: the sum of `kernel[i] * sourcePixel` over exactly those taps
of the footprint whose coordinates fall inside the image bounds —
out-of-range taps contribute nothing (no zero-padding). -/
def convolveSpecSum (source : ImageData) (kernel : Kernel) (x y ch : ℕ) : ℚ :=
  ∑ cy ∈ Finset.range kernel.width, ∑ cx ∈ Finset.range kernel.width,
    if 0 ≤ (y : ℤ) + cy - (kernel.width / 2 : ℕ) ∧
        (y : ℤ) + cy - (kernel.width / 2 : ℕ) < source.height ∧
        0 ≤ (x : ℤ) + cx - (kernel.width / 2 : ℕ) ∧
        (x : ℤ) + cx - (kernel.width / 2 : ℕ) < source.width then
      (source.data (((((y : ℤ) + cy - (kernel.width / 2 : ℕ)) * source.width +
            ((x : ℤ) + cx - (kernel.width / 2 : ℕ))) * 4).toNat + ch) : ℚ) *
        kernel.matrix.getD (cy * kernel.width + cx) 0
    else 0

/-- The `identity` kernel preset of `src/constants.ts`: centre weight 1,
all other weights 0, no factor, no bias. -/
def KERNELS_identity : Kernel :=
  { matrix := [0, 0, 0, 0, 1, 0, 0, 0, 0], width := 3, height := 3 }

/-- The `gaussianBlur3` kernel preset of `src/constants.ts`. -/
def KERNELS_gaussianBlur3 : Kernel :=
  { matrix := [1, 2, 1, 2, 4, 2, 1, 2, 1], width := 3, height := 3,
    factor := some (1/16) }

/-- An image of a single uniform colour `(r,g,b,a)`. -/
def uniformImage (w h r g b a : ℕ) : ImageData where
  width := w
  height := h
  data := fun j =>
    if j < 4 * w * h then
      match j % 4 with
      | 0 => r
      | 1 => g
      | 2 => b
      | _ => a
    else 0

/-- Morphology operation selector, `MorphologyType` of `src/types.ts`. -/
inductive MorphologyType where
  | EROSION
  | DILATION
deriving DecidableEq

/-- The per-pixel, per-channel sliding-window loop of `applyMorphology`
(`imageProcessing.ts` lines 67–91): running min (erosion, initialised to
255) or running max (dilation, initialised to 0) over the in-bounds
neighbours of `(x,y)` in a window of side `2*radius+1`.  The source loops
run `ky, kx` from `-half` to `half`; here they run over
`List.range (2*radius+1)` shifted by `radius`, the same taps in the same
order. -/
def morphChannel (source : ImageData) (t : MorphologyType) (radius x y ch : ℕ) : ℕ :=
  (List.range (2 * radius + 1)).foldl (fun acc (ky : ℕ) =>
    (List.range (2 * radius + 1)).foldl (fun acc2 (kx : ℕ) =>
      let py : ℤ := (y : ℤ) + ky - radius
      let px : ℤ := (x : ℤ) + kx - radius
      if 0 ≤ px ∧ px < source.width ∧ 0 ≤ py ∧ py < source.height then
        let idx := ((py * source.width + px) * 4).toNat
        match t with
        | .EROSION => min acc2 (source.data (idx + ch))
        | .DILATION => max acc2 (source.data (idx + ch))
      else acc2) acc)
    (match t with
     | .EROSION => 255
     | .DILATION => 0)

/-- Morphology, `applyMorphology` (`imageProcessing.ts` lines 51–101):
each RGB channel is the windowed min/max, the alpha byte is set to 255.
The store into the `Uint8ClampedArray` clamps the (integer) value. -/
def applyMorphology (source : ImageData) (t : MorphologyType) (radius : ℕ) : ImageData where
  width := source.width
  height := source.height
  data := fun j =>
    if j < 4 * source.width * source.height then
      if j % 4 = 3 then 255
      else
        min 255 (morphChannel source t radius (j / 4 % source.width)
          (j / 4 / source.width) (j % 4))
    else 0

/-- Luma of the pixel whose flat base offset is `i`
(`imageProcessing.ts` line 114): `0.299*data[i] + 0.587*data[i+1] +
0.114*data[i+2]`. -/
def grayAt (source : ImageData) (i : ℕ) : ℚ :=
  0.299 * source.data i + 0.587 * source.data (i + 1) + 0.114 * source.data (i + 2)

/-- Bit-plane slicing, `sliceBitPlane` (`imageProcessing.ts` lines
104–123): per pixel, `mask = 1 << (bit-1)`; all three colour channels get
255 if `Math.floor(gray) & mask` is non-zero and 0 otherwise; alpha 255. -/
def sliceBitPlane (source : ImageData) (bit : ℕ) : ImageData where
  width := source.width
  height := source.height
  data := fun j =>
    if j < 4 * source.width * source.height then
      if j % 4 = 3 then 255
      else
        let mask := 1 <<< (bit - 1)
        if (⌊grayAt source (4 * (j / 4))⌋.toNat &&& mask) ≠ 0 then 255 else 0
    else 0

/-- Colour-channel selector, `ColorChannel` of `src/types.ts`. -/
inductive ColorChannel where
  | RGB
  | GRAYSCALE
  | HSV_HUE
  | HSV_SAT
  | HSV_VAL
deriving DecidableEq

/-- The per-pixel scalar that `applyColorSpace` (`imageProcessing.ts`
lines 134–173) replicates into R, G and B for a non-RGB channel: luma for
grayscale, otherwise the requested HSV component (computed by the standard
max-component 6-branch hue formula; JavaScript's `switch (max)` takes the
first case whose value equals `max`, in the order `rNorm, gNorm, bNorm`)
scaled by 255. -/
def colorSpaceValue (r g b : ℕ) (channel : ColorChannel) : ℚ :=
  if channel = .GRAYSCALE then 0.299 * r + 0.587 * g + 0.114 * b
  else
    let rNorm : ℚ := r / 255
    let gNorm : ℚ := g / 255
    let bNorm : ℚ := b / 255
    let mx := max rNorm (max gNorm bNorm)
    let mn := min rNorm (min gNorm bNorm)
    let d := mx - mn
    let s := if mx = 0 then 0 else d / mx
    let v := mx
    let h :=
      if mx = mn then 0
      else if mx = rNorm then ((gNorm - bNorm) + if gNorm < bNorm then 6 else 0) / 6
      else if mx = gNorm then ((bNorm - rNorm) + 2) / 6
      else ((rNorm - gNorm) + 4) / 6
    match channel with
    | .HSV_HUE => h * 255
    | .HSV_SAT => s * 255
    | .HSV_VAL => v * 255
    | _ => 0

/-- Colour-space decomposition, `applyColorSpace` (`imageProcessing.ts`
lines 126–176).  For `RGB` the source object is returned unchanged; for
every other channel a fresh image is produced whose R, G and B bytes all
hold the stored channel scalar and whose alpha is 255. -/
def applyColorSpace (source : ImageData) (channel : ColorChannel) : ImageData :=
  if channel = .RGB then source
  else
    { width := source.width
      height := source.height
      data := fun j =>
        if j < 4 * source.width * source.height then
          if j % 4 = 3 then 255
          else
            let i := 4 * (j / 4)
            clampStore (colorSpaceValue (source.data i) (source.data (i + 1))
              (source.data (i + 2)) channel)
        else 0 }

/-- An image that is a single pixel of colour `(r,g,b)` at `(x0,y0)` on an
otherwise black (0,0,0) field, alpha 255 everywhere. -/
def singleBright (w h x0 y0 r g b : ℕ) : ImageData where
  width := w
  height := h
  data := fun j =>
    if j < 4 * w * h then
      if j % 4 = 3 then 255
      else if j / 4 = y0 * w + x0 then
        match j % 4 with
        | 0 => r
        | 1 => g
        | _ => b
      else 0
    else 0

/-! ## The WebGL pipeline engine (`src/utils/webgl.ts`)

The engine is modelled at the level of texture *contents*: a texture holds
a value of an abstract frame type `α`; a pass-through draw (`copyTexture`,
the final canvas pass, `getPixels` readback with its row flip) preserves
content, and the draw performed by an active stage is an abstract function
`drawStage` of the stage descriptor and the contents of its two bound
samplers (`u_image`, and `u_prevRawFrame` for the motion stage). -/

/-- Filter stage selector, `FilterType` of `src/types.ts`. -/
inductive FilterType where
  | KERNEL
  | MORPHOLOGY
  | BIT_PLANE
  | COLOR_ADJUST
  | CUSTOM_GLSL
  | MOTION_HEATMAP
deriving DecidableEq

/-- Stage parameters, `FilterParams` of `src/types.ts`; every field is
optional. -/
structure FilterParams where
  kernelMatrix : Option (List ℚ) := none
  kernelWeight : Option ℚ := none
  morphType : Option MorphologyType := none
  morphRadius : Option ℕ := none
  bitPlane : Option ℚ := none
  customSource : Option String := none
  motionThreshold : Option ℚ := none
  active : Option Bool := none
deriving DecidableEq

/-- Pipeline stage descriptor, `FilterNode` of `src/types.ts`. -/
structure FilterNode where
  id : String
  name : String
  type : FilterType
  params : FilterParams
deriving DecidableEq

/-- The texture contents owned by a `WebGLEngine`: the source texture, the
two ping-pong textures, the previous-raw-frame texture, and the canvas
(default framebuffer). -/
structure EngineState (α : Type) where
  source : α
  ping0 : α
  ping1 : α
  prevRaw : α
  canvas : α
deriving DecidableEq

/-- Engine method `loadImage` (`webgl.ts` lines 135–141): uploads the raw
frame into the dedicated source texture. -/
def loadImage (st : EngineState α) (frame : α) : EngineState α :=
  { st with source := frame }

/-- Loop state of the `pipeline.forEach` in `renderPipeline` (`webgl.ts`
lines 181–260): the draw count, the content of the texture
`currentInputTexture` points at, the two ping-pong contents, and — for the
verification of the motion stage — the contents bound to `u_prevRawFrame`
by each motion-heatmap draw, in order. -/
structure RenderAcc (α : Type) where
  count : ℕ
  cur : α
  ping0 : α
  ping1 : α
  motionReads : List α
deriving DecidableEq

/-- One iteration of the stage loop of `renderPipeline`: a stage whose
`active` flag is not `true` is skipped outright (no draw, no swap);
an active stage draws `drawStage node` of its input into ping-pong buffer
`(count+1) % 2`, which becomes the next input; a motion-heatmap stage
additionally samples the previous-raw-frame texture, whose content at that
moment is `prevRaw`. -/
def renderStep (drawStage : FilterNode → α → α → α) (prevRaw : α)
    (acc : RenderAcc α) (node : FilterNode) : RenderAcc α :=
  if node.params.active.getD false = false then acc
  else
    let destIdx := (acc.count + 1) % 2
    let out := drawStage node acc.cur prevRaw
    { count := acc.count + 1
      cur := out
      ping0 := if destIdx = 0 then out else acc.ping0
      ping1 := if destIdx = 1 then out else acc.ping1
      motionReads :=
        if node.type = FilterType.MOTION_HEATMAP then acc.motionReads ++ [prevRaw]
        else acc.motionReads }

/-- Engine method `renderPipeline` (`webgl.ts` lines 167–281).  In source
order: copy the just-loaded source into the previous-raw-frame texture
(line 172, before any stage runs); copy the source into ping-pong texture
0, which `currentInputTexture` initially points at (lines 176–178); run
the stage loop; finally draw `currentInputTexture` to the canvas through
the pass-through program (lines 262–280).  Returns the new engine state
together with the list of contents the motion stages sampled from the
previous-raw-frame texture. -/
def renderPipeline (drawStage : FilterNode → α → α → α) (st : EngineState α)
    (pipeline : List FilterNode) : EngineState α × List α :=
  let prevRaw := st.source
  let acc := pipeline.foldl (renderStep drawStage prevRaw)
    { count := 0, cur := st.source, ping0 := st.source, ping1 := st.ping1,
      motionReads := [] }
  ({ source := st.source, ping0 := acc.ping0, ping1 := acc.ping1,
     prevRaw := prevRaw, canvas := acc.cur }, acc.motionReads)

/-- Engine method `getPixels` (`webgl.ts` lines 283–297): read back the
presented canvas; the row flip restores top-left-origin order, so at
content level the readback is the canvas content. -/
def getPixels (st : EngineState α) : α :=
  st.canvas

/-! ## The program cache (`WebGLEngine.getProgram`, `webgl.ts` 110–132) -/

/-- A compiled and linked program, identified by the exact fragment-shader
source text it was built from. -/
structure WebGLProgram where
  fsSource : String
deriving DecidableEq

/-- The pass-through fragment shader of `src/utils/shaders.ts`
(`gl_FragColor = texture2D(u_image, v_texCoord)`); the cache key is the
exact source text, abbreviated here to a stand-in string. -/
def PASSTHROUGH_FRAGMENT : String := "passthrough"

/-- Lookup in the `programCache` map, keyed by fragment source text; the
most recently inserted entry for a key wins, as with `Map.set`/`Map.get`. -/
def cacheLookup (fs : String) : List (String × WebGLProgram) → Option WebGLProgram
  | [] => none
  | e :: rest => if e.1 = fs then some e.2 else cacheLookup fs rest

/-- Engine method `getProgram` (`webgl.ts` lines 110–132), parametrised by
`ok fs`, which says whether the program built from fragment source `fs`
(and the fixed vertex shader) compiles and links.  A cache hit returns the
cached program; on a miss the program is built and cached on success; on
failure the `catch` block falls back to `getProgram(PASSTHROUGH_FRAGMENT)`.
That recursion is unrolled once here: it terminates after one step unless
the pass-through source itself fails to compile, in which case the source
recurses forever — modelled as `none`. -/
def getProgram (ok : String → Bool) (cache : List (String × WebGLProgram))
    (fsSource : String) : Option (WebGLProgram × List (String × WebGLProgram)) :=
  match cacheLookup fsSource cache with
  | some p => some (p, cache)
  | none =>
    if ok fsSource then
      some (⟨fsSource⟩, (fsSource, ⟨fsSource⟩) :: cache)
    else if fsSource = PASSTHROUGH_FRAGMENT then none
    else
      match cacheLookup PASSTHROUGH_FRAGMENT cache with
      | some p => some (p, cache)
      | none =>
        if ok PASSTHROUGH_FRAGMENT then
          some (⟨PASSTHROUGH_FRAGMENT⟩,
            (PASSTHROUGH_FRAGMENT, ⟨PASSTHROUGH_FRAGMENT⟩) :: cache)
        else none

/-- A motion-heatmap stage with its `active` flag set, as the editor
creates one. -/
def motionNode : FilterNode :=
  { id := "motion", name := "Motion Heatmap", type := .MOTION_HEATMAP,
    params := { active := some true } }

/-- A kernel stage with its `active` flag set. -/
def kernelNode : FilterNode :=
  { id := "kern", name := "Kernel", type := .KERNEL,
    params := { active := some true } }

/-- A kernel stage with its `active` flag cleared. -/
def inactiveNode : FilterNode :=
  { id := "off", name := "Disabled", type := .KERNEL,
    params := { active := some false } }

/-! ## Helper lemmas -/

/-- A stage whose `active` flag is not `true` leaves the loop state
untouched. -/
theorem renderStep_inactive {α : Type} (drawStage : FilterNode → α → α → α)
    (prevRaw : α) (acc : RenderAcc α) (node : FilterNode)
    (h : node.params.active.getD false = false) :
    renderStep drawStage prevRaw acc node = acc := by
  simp [renderStep, h]

/-- Folding the stage loop over a pipeline of skipped stages is the
identity. -/
theorem foldl_renderStep_all_inactive {α : Type} (drawStage : FilterNode → α → α → α)
    (prevRaw : α) (l : List FilterNode)
    (h : ∀ node ∈ l, node.params.active.getD false = false) :
    ∀ acc, l.foldl (renderStep drawStage prevRaw) acc = acc := by
  induction l with
  | nil => intro acc; rfl
  | cons x t ih =>
    intro acc
    rw [List.foldl_cons, renderStep_inactive _ _ _ _ (h x (by simp))]
    exact ih (fun node hn => h node (by simp [hn])) acc

/-- Membership from a program-cache lookup hit. -/
theorem cacheLookup_mem {fs : String} {cache : List (String × WebGLProgram)}
    {p : WebGLProgram} (h : cacheLookup fs cache = some p) : (fs, p) ∈ cache := by
  induction cache with
  | nil => simp [cacheLookup] at h
  | cons e rest ih =>
    rw [cacheLookup] at h
    by_cases he : e.1 = fs
    · rw [if_pos he] at h
      have : e = (fs, p) := by
        cases e
        simp_all
      rw [this]
      exact List.mem_cons_self _ _
    · rw [if_neg he] at h
      exact List.mem_cons_of_mem _ (ih h)

/-- A left fold whose every step adds `S k` to the accumulator computes
the initial value plus the sum of `S` over the range. -/
theorem foldl_eq_add_sum (f : ℚ → ℕ → ℚ) (S : ℕ → ℚ)
    (hf : ∀ a k, f a k = a + S k) :
    ∀ (n : ℕ) (a : ℚ), (List.range n).foldl f a = a + ∑ k ∈ Finset.range n, S k := by
  intro n
  induction n with
  | zero => intro a; simp
  | succ m ih =>
    intro a
    rw [List.range_succ, List.foldl_append, List.foldl_cons, List.foldl_nil, ih,
      hf, Finset.sum_range_succ]
    ring

/-- Summing the `getD` entries of a list over its length gives its sum. -/
theorem sum_range_getD (l : List ℚ) :
    ∑ i ∈ Finset.range l.length, l.getD i 0 = l.sum := by
  induction l with
  | nil => simp
  | cons x t ih =>
    rw [List.length_cons, Finset.sum_range_succ']
    simp only [List.getD_cons_succ, List.getD_cons_zero, List.sum_cons, ih]
    ring

/-- Reindexing a row-major double sum over an `n × m` grid as a single
sum over the flat range. -/
theorem sum_grid (g : ℕ → ℚ) (n m : ℕ) :
    ∑ i ∈ Finset.range n, ∑ j ∈ Finset.range m, g (i * m + j) =
      ∑ k ∈ Finset.range (n * m), g k := by
  induction n with
  | zero => simp
  | succ p ih =>
    rw [Finset.sum_range_succ, ih, Nat.succ_mul, Finset.sum_range_add]

/-- Rounding an integer-valued rational is the identity. -/
theorem roundHalfEven_intCast (n : ℤ) : roundHalfEven (n : ℚ) = n := by
  unfold roundHalfEven
  rw [Int.floor_intCast]
  norm_num

/-- Storing a byte value through the clamped store returns it
unchanged. -/
theorem clampStore_natCast (n : ℕ) (h : n ≤ 255) : clampStore (n : ℚ) = n := by
  unfold clampStore
  rw [max_eq_right (by positivity), min_eq_right (by exact_mod_cast h)]
  rw [show ((n : ℚ)) = ((n : ℤ) : ℚ) by push_cast; ring, roundHalfEven_intCast]
  simp

/-- A fold by a non-increasing step never exceeds its initial value. -/
theorem foldl_le_init {f : ℕ → ℕ → ℕ} (hdec : ∀ a k, f a k ≤ a) :
    ∀ (l : List ℕ) (a : ℕ), l.foldl f a ≤ a := by
  intro l
  induction l with
  | nil => intro a; exact Nat.le_refl a
  | cons x t ih =>
    intro a
    exact Nat.le_trans (ih (f a x)) (hdec a x)

/-- A fold by a non-increasing step over `List.range n` is bounded by any
bound that some visited index enforces. -/
theorem foldl_range_le_target {f : ℕ → ℕ → ℕ} (hdec : ∀ a k, f a k ≤ a)
    {k B : ℕ} (hB : ∀ a, f a k ≤ B) :
    ∀ n, k < n → ∀ a, (List.range n).foldl f a ≤ B := by
  intro n
  induction n with
  | zero => intro hk; cases hk
  | succ m ih =>
    intro hk a
    rw [List.range_succ, List.foldl_append, List.foldl_cons, List.foldl_nil]
    rcases Nat.lt_or_ge k m with hlt | hge
    · exact Nat.le_trans (hdec _ m) (ih hlt a)
    · have : k = m := Nat.le_antisymm (Nat.lt_succ_iff.1 hk) hge
      rw [← this]
      exact hB _

/-- A fold whose step maps zero to zero keeps a zero accumulator. -/
theorem foldl_zero {f : ℕ → ℕ → ℕ} (h : ∀ k, f 0 k = 0) :
    ∀ l : List ℕ, l.foldl f 0 = 0 := by
  intro l
  induction l with
  | nil => rfl
  | cons x t ih => rw [List.foldl_cons, h, ih]

/-- A pixel coordinate pair in bounds gives a pixel index in bounds. -/
theorem pix_lt {w h px py : ℕ} (hx : px < w) (hy : py < h) :
    py * w + px < w * h := by
  calc py * w + px < py * w + w := by omega
    _ = (py + 1) * w := by ring
    _ ≤ h * w := Nat.mul_le_mul_right w hy
    _ = w * h := Nat.mul_comm h w

/-- Unique decomposition of a pixel index into coordinates. -/
theorem pix_decode {w px : ℕ} (py : ℕ) (hx : px < w) :
    (py * w + px) % w = px ∧ (py * w + px) / w = py := by
  constructor
  · rw [Nat.add_comm, Nat.add_mul_mod_self_right, Nat.mod_eq_of_lt hx]
  · rw [Nat.add_comm, Nat.add_mul_div_right _ _ (by omega : 0 < w),
      Nat.div_eq_of_lt hx, Nat.zero_add]

/-- The nested accumulation loop of `convolve` computes the spec's
in-bounds tap sum. -/
theorem convolveSum_eq_specSum (src : ImageData) (k : Kernel) (x y ch : ℕ) :
    convolveSum src k x y ch = convolveSpecSum src k x y ch := by
  unfold convolveSum convolveSpecSum
  rw [foldl_eq_add_sum _ _
    (fun a cy => by
      rw [foldl_eq_add_sum _
        (fun cx => if 0 ≤ (y : ℤ) + cy - (k.width / 2 : ℕ) ∧
            (y : ℤ) + cy - (k.width / 2 : ℕ) < src.height ∧
            0 ≤ (x : ℤ) + cx - (k.width / 2 : ℕ) ∧
            (x : ℤ) + cx - (k.width / 2 : ℕ) < src.width then
          (src.data (((((y : ℤ) + cy - (k.width / 2 : ℕ)) * src.width +
                ((x : ℤ) + cx - (k.width / 2 : ℕ))) * 4).toNat + ch) : ℚ) *
            k.matrix.getD (cy * k.width + cx) 0
        else 0)
        (fun a2 cx => by dsimp only; split <;> simp)]),
    zero_add]

/-- Output byte of `convolve` at a colour channel, in terms of the
accumulation loop. -/
theorem convolve_data_rgb (src : ImageData) (k : Kernel) (j : ℕ)
    (hj : j < 4 * src.width * src.height) (hch : j % 4 ≠ 3) :
    (convolve src k).data j
      = clampStore (convolveSum src k (j / 4 % src.width) (j / 4 / src.width) (j % 4)
          * k.factor.getD 1 + k.bias.getD 0) := by
  simp [convolve, hj, hch]

/-- Output byte of `convolve` at an alpha channel. -/
theorem convolve_data_alpha (src : ImageData) (k : Kernel) (j : ℕ)
    (hj : j < 4 * src.width * src.height) (hch : j % 4 = 3) :
    (convolve src k).data j = 255 := by
  simp [convolve, hj, hch]

/-- Expansion of a sum over `Finset.range 3`. -/
theorem sum_range_three (f : ℕ → ℚ) :
    ∑ i ∈ Finset.range 3, f i = f 0 + f 1 + f 2 := by
  rw [show (3 : ℕ) = 2 + 1 from rfl, Finset.sum_range_succ,
    show (2 : ℕ) = 1 + 1 from rfl, Finset.sum_range_succ, Finset.sum_range_one]

/-- The spec sum for the identity kernel collapses to the centre tap. -/
theorem convolveSpecSum_identity (src : ImageData) (x y ch : ℕ)
    (hx : x < src.width) (hy : y < src.height) :
    convolveSpecSum src KERNELS_identity x y ch
      = src.data ((y * src.width + x) * 4 + ch) := by
  unfold convolveSpecSum
  rw [show KERNELS_identity.width = 3 from rfl,
    show KERNELS_identity.matrix = [0, 0, 0, 0, 1, 0, 0, 0, 0] from rfl]
  rw [sum_range_three, sum_range_three, sum_range_three, sum_range_three]
  norm_num
  rw [if_pos ⟨hy, hx⟩]
  have h1 : ((y : ℤ) * src.width + x) * 4 = ((y * src.width + x) * 4 : ℕ) := by
    push_cast; ring
  rw [h1, Int.toNat_natCast]

/-- Decoding a valid flat byte index into coordinates and back. -/
theorem byte_decode {w h j : ℕ} (hj : j < 4 * w * h) :
    j / 4 % w < w ∧ j / 4 / w < h ∧ (j / 4 / w * w + j / 4 % w) * 4 + j % 4 = j := by
  have hw : 0 < w := by
    rcases Nat.eq_zero_or_pos w with hw | hw
    · subst hw; simp at hj
    · exact hw
  have hp : j / 4 < w * h := by
    rw [Nat.div_lt_iff_lt_mul (by norm_num : (0:ℕ) < 4)]
    calc j < 4 * w * h := hj
      _ = w * h * 4 := by ring
  have hy : j / 4 / w < h := by
    rw [Nat.div_lt_iff_lt_mul hw]
    calc j / 4 < w * h := hp
      _ = h * w := Nat.mul_comm w h
  refine ⟨Nat.mod_lt _ hw, hy, ?_⟩
  have hdm4 := Nat.div_add_mod j 4
  have hdmw := Nat.div_add_mod (j / 4) w
  have hpw : j / 4 / w * w + j / 4 % w = j / 4 := by
    rw [Nat.mul_comm]
    exact hdmw
  rw [hpw]
  omega

/-- Reading a byte of a uniform image. -/
theorem uniformImage_data (w h r g b a p ch : ℕ) (hp : p < w * h) (hch : ch < 4) :
    (uniformImage w h r g b a).data (p * 4 + ch) = [r, g, b, a].getD ch 0 := by
  simp only [uniformImage]
  rw [if_pos (by
    have h4 : (p + 1) * 4 ≤ w * h * 4 := Nat.mul_le_mul_right 4 hp
    calc p * 4 + ch < (p + 1) * 4 := by omega
      _ ≤ w * h * 4 := h4
      _ = 4 * w * h := by ring)]
  have hmod : (p * 4 + ch) % 4 = ch := by omega
  rw [hmod]
  interval_cases ch <;> rfl

/-- Masking with `1 << k` tests bit `k`. -/
theorem and_one_shiftLeft_ne_zero (n k : ℕ) :
    (n &&& (1 <<< k) ≠ 0) ↔ n.testBit k := by
  rw [Nat.one_shiftLeft, Nat.and_two_pow]
  cases h : n.testBit k <;> simp [h, Nat.pow_eq_zero]

set_option maxRecDepth 4000 in
/-- Bit 7 of a byte is set exactly when the byte is at least 128. -/
theorem testBit_seven_iff : ∀ m < 256, (Nat.testBit m 7 ↔ 128 ≤ m) := by decide

/-- The luma of a pixel with in-range bytes lies in `[0, 255]`. -/
theorem grayAt_bounds (src : ImageData) (i : ℕ)
    (hbytes : ∀ j, src.data j ≤ 255) :
    0 ≤ grayAt src i ∧ grayAt src i ≤ 255 := by
  have h0 := hbytes i
  have h1 := hbytes (i + 1)
  have h2 := hbytes (i + 2)
  have c0 : ((src.data i : ℚ)) ≤ 255 := by exact_mod_cast h0
  have c1 : ((src.data (i + 1) : ℚ)) ≤ 255 := by exact_mod_cast h1
  have c2 : ((src.data (i + 2) : ℚ)) ≤ 255 := by exact_mod_cast h2
  have n0 : (0 : ℚ) ≤ src.data i := by positivity
  have n1 : (0 : ℚ) ≤ src.data (i + 1) := by positivity
  have n2 : (0 : ℚ) ≤ src.data (i + 2) := by positivity
  unfold grayAt
  norm_num
  constructor <;> linarith

/-- The erosion channel value is bounded by any in-bounds tap of the
window: the running minimum can only go below a visited neighbour. -/
theorem morphChannel_erosion_le (src : ImageData) (radius x y ch px py kx ky : ℕ)
    (hpx : px < src.width) (hpy : py < src.height)
    (hkxLt : kx < 2 * radius + 1) (hkyLt : ky < 2 * radius + 1)
    (hkx : (x : ℤ) + kx - radius = px) (hky : (y : ℤ) + ky - radius = py) :
    morphChannel src .EROSION radius x y ch ≤
      src.data ((py * src.width + px) * 4 + ch) := by
  unfold morphChannel
  refine foldl_range_le_target ?_ ?_ _ hkyLt _
  · intro a k
    refine foldl_le_init (fun a2 k2 => ?_) _ a
    dsimp only
    split
    · exact min_le_left _ _
    · exact le_rfl
  · intro a
    refine foldl_range_le_target ?_ ?_ _ hkxLt a
    · intro a2 k2
      dsimp only
      split
      · exact min_le_left _ _
      · exact le_rfl
    · intro a2
      dsimp only
      split
      · have hidx : ((((y : ℤ) + ky - radius) * src.width + ((x : ℤ) + kx - radius)) * 4).toNat
            + ch = (py * src.width + px) * 4 + ch := by
          rw [hky, hkx,
            show ((py : ℤ) * src.width + px) * 4 = (((py * src.width + px) * 4 : ℕ) : ℤ) by
              push_cast; ring, Int.toNat_natCast]
        rw [hidx]
        exact min_le_right _ _
      · rename_i hc
        exact absurd ⟨by rw [hkx]; exact Int.natCast_nonneg px,
          by rw [hkx]; exact_mod_cast hpx,
          by rw [hky]; exact Int.natCast_nonneg py,
          by rw [hky]; exact_mod_cast hpy⟩ hc

/-- Dilation of an image whose colour bytes are all zero yields zero in
every channel: the running maximum starts at 0 and only sees zeros. -/
theorem morphChannel_dilation_zero (src : ImageData) (radius x y ch : ℕ)
    (hblack : ∀ i, i % 4 ≠ 3 → src.data i = 0) (hch : ch < 3) :
    morphChannel src .DILATION radius x y ch = 0 := by
  unfold morphChannel
  refine foldl_zero (fun ky => ?_) _
  refine foldl_zero (fun kx => ?_) _
  dsimp only
  split
  · rename_i hc
    obtain ⟨h1, h2, h3, h4⟩ := hc
    have hz : 0 ≤ ((y : ℤ) + ky - radius) * src.width + ((x : ℤ) + kx - radius) := by
      have := mul_nonneg h3 (Int.natCast_nonneg src.width)
      omega
    have hz4 : ((((y : ℤ) + ky - radius) * src.width + ((x : ℤ) + kx - radius)) * 4).toNat
        = (((y : ℤ) + ky - radius) * src.width + ((x : ℤ) + kx - radius)).toNat * 4 := by
      rw [show (((y : ℤ) + ky - radius) * src.width + ((x : ℤ) + kx - radius)) * 4
          = (((((y : ℤ) + ky - radius) * src.width + ((x : ℤ) + kx - radius)).toNat * 4 : ℕ) : ℤ) by
        push_cast
        rw [Int.toNat_of_nonneg hz], Int.toNat_natCast]
    rw [hz4]
    rw [hblack _ (by omega)]
    simp
  · rfl

/-- Reading a black-field byte of `singleBright` away from the bright
pixel. -/
theorem singleBright_data_ne (w h x0 y0 r g b px py ch : ℕ)
    (hpx : px < w) (hpy : py < h) (hch : ch < 3)
    (hne : py * w + px ≠ y0 * w + x0) :
    (singleBright w h x0 y0 r g b).data ((py * w + px) * 4 + ch) = 0 := by
  simp only [singleBright]
  rw [if_pos (by
    have h4 : (py * w + px + 1) * 4 ≤ w * h * 4 := Nat.mul_le_mul_right 4 (pix_lt hpx hpy)
    calc (py * w + px) * 4 + ch < (py * w + px + 1) * 4 := by omega
      _ ≤ w * h * 4 := h4
      _ = 4 * w * h := by ring)]
  rw [if_neg (by omega), if_neg (by
    have : ((py * w + px) * 4 + ch) / 4 = py * w + px := by omega
    rw [this]
    exact hne)]

/-! ## Claim theorems -/

/-- C1: the claim states that a motion-heatmap stage running during the
second of two consecutive `renderPipeline` calls samples, from the
previous-raw-frame buffer, the raw frame loaded for the *previous* tick.
The code copies the just-loaded source into `prevRawTexture` at the start
of `renderPipeline`, before the stage loop, so the motion stage of the
same tick reads the *current* frame: with frame 1 loaded for tick one and
frame 2 for tick two, the second tick's motion stage reads 2, not 1 —
zero ticks of lag instead of one. -/
theorem renderPipeline_motion_reads_current_tick :
    (renderPipeline (fun (_ : FilterNode) (c _ : ℕ) => c)
        (loadImage
          (renderPipeline (fun (_ : FilterNode) (c _ : ℕ) => c)
            (loadImage ⟨0, 0, 0, 0, 0⟩ 1) [motionNode]).1 2)
        [motionNode]).2 = [2] ∧ ([2] : List ℕ) ≠ [1] := by
  exact ⟨rfl, by simp⟩

/-- C2: for every loaded source frame, `renderPipeline` on an empty
pipeline, or on a pipeline all of whose stages have their `active` flag
off, presents the loaded source frame on the canvas and reads it back
unchanged. -/
theorem renderPipeline_inactive_output_eq_source {α : Type}
    (drawStage : FilterNode → α → α → α) (st : EngineState α) (frame : α)
    (pipeline : List FilterNode)
    (h : pipeline = [] ∨ ∀ node ∈ pipeline, node.params.active.getD false = false) :
    (renderPipeline drawStage (loadImage st frame) pipeline).1.canvas = frame ∧
      getPixels (renderPipeline drawStage (loadImage st frame) pipeline).1 = frame := by
  have h' : ∀ node ∈ pipeline, node.params.active.getD false = false := by
    rcases h with h | h
    · simp [h]
    · exact h
  constructor <;>
    simp [renderPipeline, loadImage, getPixels,
      foldl_renderStep_all_inactive _ _ _ h']

/-- Witness for C2: a one-stage pipeline whose stage is disabled leaves
frame 7 on the canvas and in the readback. -/
theorem renderPipeline_inactive_output_eq_source_witness :
    (renderPipeline (fun (_ : FilterNode) (c _ : ℕ) => c)
        (loadImage ⟨0, 0, 0, 0, 0⟩ 7) [inactiveNode]).1.canvas = 7 ∧
      getPixels (renderPipeline (fun (_ : FilterNode) (c _ : ℕ) => c)
        (loadImage ⟨0, 0, 0, 0, 0⟩ 7) [inactiveNode]).1 = 7 :=
  renderPipeline_inactive_output_eq_source _ _ _ _ (Or.inr (by decide))

/-- C3: disabling one stage is observably identical to removing it: for
every engine state, stage semantics and pipeline, `renderPipeline` on
`l1 ++ node :: l2` with `node` inactive returns exactly the state and
motion-read trace of `renderPipeline` on `l1 ++ l2` — the inactive stage
performs no draw and no ping-pong swap. -/
theorem renderPipeline_disable_eq_remove {α : Type}
    (drawStage : FilterNode → α → α → α) (st : EngineState α)
    (l1 l2 : List FilterNode) (node : FilterNode)
    (h : node.params.active.getD false = false) :
    renderPipeline drawStage st (l1 ++ node :: l2) =
      renderPipeline drawStage st (l1 ++ l2) := by
  simp [renderPipeline, List.foldl_append, List.foldl_cons,
    renderStep_inactive _ _ _ _ h]

/-- Witness for C3: appending a disabled stage after an active kernel
stage changes nothing. -/
theorem renderPipeline_disable_eq_remove_witness :
    renderPipeline (fun (_ : FilterNode) (c _ : ℕ) => c + 1)
        ⟨0, 0, 0, 0, 0⟩ [kernelNode, inactiveNode] =
      renderPipeline (fun (_ : FilterNode) (c _ : ℕ) => c + 1)
        ⟨0, 0, 0, 0, 0⟩ [kernelNode] :=
  renderPipeline_disable_eq_remove _ _ [kernelNode] [] inactiveNode (by decide)

/-- C9: `getProgram` never caches a program that failed to compile or
link: if every cache entry holds a successfully built program keyed by its
own source and the pass-through source builds, then `getProgram` returns
(rather than raising or diverging), the new cache again holds only
successfully built programs, and when the requested source fails to build
the returned program is the identity pass-through. -/
theorem getProgram_cache_sound (ok : String → Bool)
    (cache : List (String × WebGLProgram)) (fsSource : String)
    (hcache : ∀ e ∈ cache, ok e.1 = true ∧ e.2.fsSource = e.1)
    (hpass : ok PASSTHROUGH_FRAGMENT = true) :
    ∃ p cache', getProgram ok cache fsSource = some (p, cache') ∧
      (∀ e ∈ cache', ok e.1 = true ∧ e.2.fsSource = e.1) ∧
      (ok fsSource = false → p.fsSource = PASSTHROUGH_FRAGMENT) := by
  unfold getProgram
  cases hl : cacheLookup fsSource cache with
  | some p =>
    refine ⟨p, cache, rfl, hcache, fun hbad => ?_⟩
    exact absurd (hcache _ (cacheLookup_mem hl)).1 (by simp [hbad])
  | none =>
    by_cases hok : ok fsSource
    · refine ⟨⟨fsSource⟩, (fsSource, ⟨fsSource⟩) :: cache, by simp [hok], ?_, ?_⟩
      · intro e he
        rcases List.mem_cons.1 he with he | he
        · simp [he, hok]
        · exact hcache e he
      · intro hbad; rw [hok] at hbad; cases hbad
    · have hne : fsSource ≠ PASSTHROUGH_FRAGMENT := by
        intro heq; rw [heq, hpass] at hok; exact hok rfl
      cases hlp : cacheLookup PASSTHROUGH_FRAGMENT cache with
      | some p =>
        refine ⟨p, cache, ?_, hcache, fun _ => ?_⟩
        · simp [hok, hne, hlp]
        · exact (hcache _ (cacheLookup_mem hlp)).2
      | none =>
        refine ⟨⟨PASSTHROUGH_FRAGMENT⟩,
          (PASSTHROUGH_FRAGMENT, ⟨PASSTHROUGH_FRAGMENT⟩) :: cache, ?_, ?_, fun _ => rfl⟩
        · simp [hok, hne, hlp, hpass]
        · intro e he
          rcases List.mem_cons.1 he with he | he
          · simp [he, hpass]
          · exact hcache e he

/-- Witness for C9: with an empty cache, an `ok` that accepts only the
pass-through source, and a failing custom source, `getProgram` returns the
pass-through program and caches only it. -/
theorem getProgram_cache_sound_witness :
    ∃ p cache', getProgram (fun s => s = PASSTHROUGH_FRAGMENT) [] "custom" = some (p, cache') ∧
      (∀ e ∈ cache', (fun s : String => (s = PASSTHROUGH_FRAGMENT : Bool)) e.1 = true ∧
        e.2.fsSource = e.1) ∧
      ((fun s : String => (s = PASSTHROUGH_FRAGMENT : Bool)) "custom" = false →
        p.fsSource = PASSTHROUGH_FRAGMENT) :=
  getProgram_cache_sound _ [] "custom" (by simp) (by simp)

/-- C4: for every source image and kernel, each output byte of `convolve`
at a colour channel is `clamp(sum*factor+bias, 0, 255)` (stored through
the byte store), where the sum accumulates `kernel[i]*sourcePixel` over
exactly the in-bounds taps of the footprint — out-of-range taps contribute
nothing — and every output alpha byte is 255. -/
theorem convolve_pixel_formula (src : ImageData) (k : Kernel) (j : ℕ)
    (hj : j < 4 * src.width * src.height) :
    (j % 4 = 3 → (convolve src k).data j = 255) ∧
    (j % 4 ≠ 3 → (convolve src k).data j =
      clampStore (convolveSpecSum src k (j / 4 % src.width) (j / 4 / src.width) (j % 4)
        * k.factor.getD 1 + k.bias.getD 0)) := by
  constructor
  · intro hch
    exact convolve_data_alpha src k j hj hch
  · intro hch
    rw [convolve_data_rgb src k j hj hch, convolveSum_eq_specSum]

/-- Witness for C4: the formula evaluated on a 1×1 image and the identity
kernel at byte 0. -/
theorem convolve_pixel_formula_witness :
    (0 : ℕ) < 4 * (uniformImage 1 1 5 6 7 8).width * (uniformImage 1 1 5 6 7 8).height ∧
    ((0 % 4 = 3 → (convolve (uniformImage 1 1 5 6 7 8) KERNELS_identity).data 0 = 255) ∧
     (0 % 4 ≠ 3 → (convolve (uniformImage 1 1 5 6 7 8) KERNELS_identity).data 0 =
       clampStore (convolveSpecSum (uniformImage 1 1 5 6 7 8) KERNELS_identity
         (0 / 4 % (uniformImage 1 1 5 6 7 8).width) (0 / 4 / (uniformImage 1 1 5 6 7 8).width)
         (0 % 4) * KERNELS_identity.factor.getD 1 + KERNELS_identity.bias.getD 0))) :=
  ⟨by norm_num [uniformImage],
   convolve_pixel_formula (uniformImage 1 1 5 6 7 8) KERNELS_identity 0
     (by norm_num [uniformImage])⟩

/-- C6 counterexample: the claim says identity-kernel convolution
reproduces *every channel* of *every pixel* exactly, but `convolve`
forces alpha to 255: on a 1×1 image with alpha 7 the output alpha is 255,
not 7. -/
theorem convolve_identity_alpha_counterexample :
    (convolve (uniformImage 1 1 10 20 30 7) KERNELS_identity).data 3 = 255 ∧
    (uniformImage 1 1 10 20 30 7).data 3 = 7 ∧ (255 : ℕ) ≠ 7 := by
  refine ⟨?_, by norm_num [uniformImage], by norm_num⟩
  exact convolve_data_alpha _ _ 3 (by norm_num [uniformImage]) (by norm_num)

/-- C6 amended: for every image whose bytes are in range, convolution
with the identity kernel reproduces every R, G and B byte exactly and
forces every alpha byte to 255 (so the whole image is reproduced exactly
iff the input's alpha bytes are all 255). -/
theorem convolve_identity_preserves_rgb (src : ImageData)
    (hbytes : ∀ i, src.data i ≤ 255) (j : ℕ)
    (hj : j < 4 * src.width * src.height) :
    (j % 4 = 3 → (convolve src KERNELS_identity).data j = 255) ∧
    (j % 4 ≠ 3 → (convolve src KERNELS_identity).data j = src.data j) := by
  obtain ⟨hx, hy, hidx⟩ := byte_decode hj
  refine ⟨fun hch => convolve_data_alpha _ _ j hj hch, fun hch => ?_⟩
  rw [convolve_data_rgb _ _ j hj hch, convolveSum_eq_specSum,
    convolveSpecSum_identity _ _ _ _ hx hy, hidx,
    show KERNELS_identity.factor.getD 1 = 1 from rfl,
    show KERNELS_identity.bias.getD 0 = 0 from rfl, mul_one, add_zero]
  exact clampStore_natCast _ (hbytes j)

/-- Witness for the amended C6 on a 1×1 image at the green byte. -/
theorem convolve_identity_preserves_rgb_witness :
    (∀ i, (uniformImage 1 1 10 20 30 40).data i ≤ 255) ∧
    (1 : ℕ) < 4 * (uniformImage 1 1 10 20 30 40).width * (uniformImage 1 1 10 20 30 40).height ∧
    ((1 % 4 = 3 → (convolve (uniformImage 1 1 10 20 30 40) KERNELS_identity).data 1 = 255) ∧
     (1 % 4 ≠ 3 → (convolve (uniformImage 1 1 10 20 30 40) KERNELS_identity).data 1 =
       (uniformImage 1 1 10 20 30 40).data 1)) := by
  have hb : ∀ i, (uniformImage 1 1 10 20 30 40).data i ≤ 255 := by
    intro i
    simp only [uniformImage]
    split
    · split <;> omega
    · omega
  have hj : (1 : ℕ) < 4 * (uniformImage 1 1 10 20 30 40).width *
      (uniformImage 1 1 10 20 30 40).height := by norm_num [uniformImage]
  exact ⟨hb, hj, convolve_identity_preserves_rgb _ hb 1 hj⟩

/-- C5 counterexample: the claim says a uniform image convolved with any
normalized blur kernel keeps the uniform colour at *every* pixel, but
out-of-range taps are omitted rather than substituted, so border pixels
lose weight: a 1×1 all-255 image under the normalized 3×3 Gaussian keeps
only the centre weight `4/16` — the output byte is 64, not 255. -/
theorem convolve_uniform_blur_counterexample :
    (convolve (uniformImage 1 1 255 255 255 255) KERNELS_gaussianBlur3).data 0 = 64 ∧
    (64 : ℕ) ≠ 255 := by
  refine ⟨?_, by norm_num⟩
  rw [convolve_data_rgb _ _ 0 (by norm_num [uniformImage]) (by norm_num)]
  have hs : convolveSum (uniformImage 1 1 255 255 255 255) KERNELS_gaussianBlur3
      (0 / 4 % (uniformImage 1 1 255 255 255 255).width)
      (0 / 4 / (uniformImage 1 1 255 255 255 255).width) (0 % 4) = 1020 := by
    norm_num [convolveSum, uniformImage, KERNELS_gaussianBlur3, List.range_succ]
  rw [hs, show KERNELS_gaussianBlur3.factor.getD 1 = 1/16 from rfl,
    show KERNELS_gaussianBlur3.bias.getD 0 = 0 from rfl]
  norm_num [clampStore, roundHalfEven, Int.floor_eq_iff]
  decide

/-- C5 amended: a uniform-colour image convolved with a normalized blur
kernel (non-negative weights, weight sum times factor equal to 1, no
bias) keeps the uniform colour exactly at every pixel whose kernel
footprint lies entirely inside the image bounds. -/
theorem convolve_normalized_uniform_interior
    (w h r g b a : ℕ) (k : Kernel)
    (hr : r ≤ 255) (hg : g ≤ 255) (hb : b ≤ 255)
    (hside : 0 < k.width)
    (hlen : k.matrix.length = k.width * k.width)
    (hnonneg : ∀ q ∈ k.matrix, 0 ≤ q)
    (hnorm : k.matrix.sum * k.factor.getD 1 = 1)
    (hbias : k.bias.getD 0 = 0)
    (x y ch : ℕ) (hch : ch < 3)
    (hfoot : ∀ cy < k.width, ∀ cx < k.width,
      0 ≤ (y : ℤ) + cy - (k.width / 2 : ℕ) ∧ (y : ℤ) + cy - (k.width / 2 : ℕ) < h ∧
      0 ≤ (x : ℤ) + cx - (k.width / 2 : ℕ) ∧ (x : ℤ) + cx - (k.width / 2 : ℕ) < w) :
    (convolve (uniformImage w h r g b a) k).data ((y * w + x) * 4 + ch)
      = [r, g, b].getD ch 0 := by
  have hhalf : k.width / 2 < k.width := Nat.div_lt_self hside (by norm_num)
  obtain ⟨hy0, hy1, hx0, hx1⟩ := hfoot (k.width / 2) hhalf (k.width / 2) hhalf
  have hx : x < w := by omega
  have hy : y < h := by omega
  have hp : y * w + x < w * h := pix_lt hx hy
  have hj : (y * w + x) * 4 + ch < 4 * (uniformImage w h r g b a).width *
      (uniformImage w h r g b a).height := by
    show (y * w + x) * 4 + ch < 4 * w * h
    have h4 : (y * w + x + 1) * 4 ≤ w * h * 4 := Nat.mul_le_mul_right 4 hp
    calc (y * w + x) * 4 + ch < (y * w + x + 1) * 4 := by omega
      _ ≤ w * h * 4 := h4
      _ = 4 * w * h := by ring
  have hj4 : ((y * w + x) * 4 + ch) / 4 = y * w + x := by
    have h4 : ch < 4 := by omega
    omega
  have hjm : ((y * w + x) * 4 + ch) % 4 = ch := by omega
  obtain ⟨hxw, hyw⟩ := pix_decode y hx
  rw [convolve_data_rgb _ _ _ hj (by rw [hjm]; omega), convolveSum_eq_specSum]
  rw [show (uniformImage w h r g b a).width = w from rfl,
    show (uniformImage w h r g b a).height = h from rfl] at *
  rw [hj4, hjm, hxw, hyw]
  have hterm : ∀ cy ∈ Finset.range k.width, ∀ cx ∈ Finset.range k.width,
      (if 0 ≤ (y : ℤ) + cy - (k.width / 2 : ℕ) ∧
          (y : ℤ) + cy - (k.width / 2 : ℕ) < (uniformImage w h r g b a).height ∧
          0 ≤ (x : ℤ) + cx - (k.width / 2 : ℕ) ∧
          (x : ℤ) + cx - (k.width / 2 : ℕ) < (uniformImage w h r g b a).width then
        ((uniformImage w h r g b a).data
          (((((y : ℤ) + cy - (k.width / 2 : ℕ)) * (uniformImage w h r g b a).width +
              ((x : ℤ) + cx - (k.width / 2 : ℕ))) * 4).toNat + ch) : ℚ) *
          k.matrix.getD (cy * k.width + cx) 0
      else 0)
        = ([r, g, b, a].getD ch 0 : ℚ) * k.matrix.getD (cy * k.width + cx) 0 := by
    intro cy hcy cx hcx
    obtain ⟨h1, h2, h3, h4⟩ := hfoot cy (Finset.mem_range.1 hcy) cx (Finset.mem_range.1 hcx)
    rw [if_pos ⟨h1, by exact_mod_cast h2, h3, by exact_mod_cast h4⟩]
    congr 2
    set sy := ((y : ℤ) + cy - (k.width / 2 : ℕ)).toNat with hsy
    set sx := ((x : ℤ) + cx - (k.width / 2 : ℕ)).toNat with hsx
    have hsy' : (y : ℤ) + cy - (k.width / 2 : ℕ) = (sy : ℤ) := (Int.toNat_of_nonneg h1).symm
    have hsx' : (x : ℤ) + cx - (k.width / 2 : ℕ) = (sx : ℤ) := (Int.toNat_of_nonneg h3).symm
    have hsyh : sy < h := by omega
    have hsxw : sx < w := by omega
    have hidx : ((((y : ℤ) + cy - (k.width / 2 : ℕ)) * (uniformImage w h r g b a).width +
        ((x : ℤ) + cx - (k.width / 2 : ℕ))) * 4).toNat = (sy * w + sx) * 4 := by
      rw [hsy', hsx', show (uniformImage w h r g b a).width = (w : ℤ) from rfl]
      rw [show ((sy : ℤ) * w + sx) * 4 = (((sy * w + sx) * 4 : ℕ) : ℤ) by push_cast; ring]
      exact Int.toNat_natCast _
    rw [hidx, uniformImage_data w h r g b a _ ch (pix_lt hsxw hsyh) (by omega)]
  unfold convolveSpecSum
  rw [Finset.sum_congr rfl (fun cy hcy => Finset.sum_congr rfl (fun cx hcx =>
    hterm cy hcy cx hcx))]
  have hmul : ∀ cy ∈ Finset.range k.width,
      ∑ cx ∈ Finset.range k.width,
        ([r, g, b, a].getD ch 0 : ℚ) * k.matrix.getD (cy * k.width + cx) 0
      = ([r, g, b, a].getD ch 0 : ℚ) *
          ∑ cx ∈ Finset.range k.width, k.matrix.getD (cy * k.width + cx) 0 := by
    intro cy _
    rw [Finset.mul_sum]
  rw [Finset.sum_congr rfl hmul, ← Finset.mul_sum,
    sum_grid (fun i => k.matrix.getD i 0) k.width k.width, ← hlen, sum_range_getD]
  rw [mul_assoc, hnorm, mul_one, hbias, add_zero]
  have hbyte : [r, g, b, a].getD ch 0 ≤ 255 ∧
      [r, g, b, a].getD ch 0 = [r, g, b].getD ch 0 := by
    interval_cases ch <;> simp [hr, hg, hb]
  rw [clampStore_natCast _ hbyte.1, hbyte.2]

/-- Witness for the amended C5: the centre pixel of a uniform 3×3 image
under the normalized 3×3 Gaussian blur keeps its colour. -/
theorem convolve_normalized_uniform_interior_witness :
    (100 : ℕ) ≤ 255 ∧
    0 < KERNELS_gaussianBlur3.width ∧
    KERNELS_gaussianBlur3.matrix.length =
      KERNELS_gaussianBlur3.width * KERNELS_gaussianBlur3.width ∧
    (∀ q ∈ KERNELS_gaussianBlur3.matrix, 0 ≤ q) ∧
    KERNELS_gaussianBlur3.matrix.sum * KERNELS_gaussianBlur3.factor.getD 1 = 1 ∧
    KERNELS_gaussianBlur3.bias.getD 0 = 0 ∧
    (0 : ℕ) < 3 ∧
    (∀ cy < KERNELS_gaussianBlur3.width, ∀ cx < KERNELS_gaussianBlur3.width,
      0 ≤ ((1 : ℕ) : ℤ) + cy - (KERNELS_gaussianBlur3.width / 2 : ℕ) ∧
      ((1 : ℕ) : ℤ) + cy - (KERNELS_gaussianBlur3.width / 2 : ℕ) < ((3 : ℕ) : ℤ) ∧
      0 ≤ ((1 : ℕ) : ℤ) + cx - (KERNELS_gaussianBlur3.width / 2 : ℕ) ∧
      ((1 : ℕ) : ℤ) + cx - (KERNELS_gaussianBlur3.width / 2 : ℕ) < ((3 : ℕ) : ℤ)) ∧
    (convolve (uniformImage 3 3 100 100 100 255) KERNELS_gaussianBlur3).data
      ((1 * 3 + 1) * 4 + 0) = [100, 100, 100].getD 0 0 := by
  have hfoot : ∀ cy < KERNELS_gaussianBlur3.width, ∀ cx < KERNELS_gaussianBlur3.width,
      0 ≤ ((1 : ℕ) : ℤ) + cy - (KERNELS_gaussianBlur3.width / 2 : ℕ) ∧
      ((1 : ℕ) : ℤ) + cy - (KERNELS_gaussianBlur3.width / 2 : ℕ) < ((3 : ℕ) : ℤ) ∧
      0 ≤ ((1 : ℕ) : ℤ) + cx - (KERNELS_gaussianBlur3.width / 2 : ℕ) ∧
      ((1 : ℕ) : ℤ) + cx - (KERNELS_gaussianBlur3.width / 2 : ℕ) < ((3 : ℕ) : ℤ) := by
    intro cy hcy cx hcx
    simp only [KERNELS_gaussianBlur3] at hcy hcx ⊢
    omega
  refine ⟨by norm_num, by norm_num [KERNELS_gaussianBlur3],
    by norm_num [KERNELS_gaussianBlur3], by norm_num [KERNELS_gaussianBlur3],
    by norm_num [KERNELS_gaussianBlur3], rfl, by norm_num, hfoot, ?_⟩
  exact convolve_normalized_uniform_interior 3 3 100 100 100 255 KERNELS_gaussianBlur3
    (by norm_num) (by norm_num) (by norm_num) (by norm_num [KERNELS_gaussianBlur3])
    (by norm_num [KERNELS_gaussianBlur3]) (by norm_num [KERNELS_gaussianBlur3])
    (by norm_num [KERNELS_gaussianBlur3]) rfl 1 1 0 (by norm_num) hfoot

/-- C7: for every pixel, `sliceBitPlane` with `bit ∈ [1,8]` computes
`luma = 0.299R + 0.587G + 0.114B` and writes white exactly when bit
`bit-1` of `floor(luma)` is set, black otherwise, with alpha 255; in
particular with `bit = 8` the pixel is white iff `luma ≥ 128`. -/
theorem sliceBitPlane_formula (src : ImageData)
    (hbytes : ∀ i, src.data i ≤ 255)
    (bit : ℕ) (hb1 : 1 ≤ bit) (hb8 : bit ≤ 8)
    (p : ℕ) (hp : p < src.width * src.height) :
    ((∀ ch < 3, (sliceBitPlane src bit).data (4 * p + ch) =
        if (⌊grayAt src (4 * p)⌋.toNat).testBit (bit - 1) then 255 else 0) ∧
      (sliceBitPlane src bit).data (4 * p + 3) = 255) ∧
    (bit = 8 → ((sliceBitPlane src bit).data (4 * p) = 255 ↔
      128 ≤ grayAt src (4 * p))) := by
  have hj : ∀ ch, ch < 4 → 4 * p + ch < 4 * src.width * src.height := by
    intro ch hch
    have h4 : 4 * (p + 1) ≤ 4 * (src.width * src.height) := by omega
    calc 4 * p + ch < 4 * (p + 1) := by omega
      _ ≤ 4 * (src.width * src.height) := h4
      _ = 4 * src.width * src.height := by ring
  have hmod : ∀ ch, ch < 4 → (4 * p + ch) % 4 = ch := by intro ch hch; omega
  have hdiv : ∀ ch, ch < 4 → 4 * ((4 * p + ch) / 4) = 4 * p := by intro ch hch; omega
  have hrgb : ∀ ch, ch < 3 → (sliceBitPlane src bit).data (4 * p + ch) =
      if (⌊grayAt src (4 * p)⌋.toNat).testBit (bit - 1) then 255 else 0 := by
    intro ch hch
    have e : (sliceBitPlane src bit).data (4 * p + ch) =
        if (⌊grayAt src (4 * p)⌋.toNat &&& (1 <<< (bit - 1))) ≠ 0 then 255 else 0 := by
      simp only [sliceBitPlane]
      rw [if_pos (hj ch (by omega)), if_neg (by rw [hmod ch (by omega)]; omega),
        hdiv ch (by omega)]
    rw [e]
    by_cases hset : (⌊grayAt src (4 * p)⌋.toNat).testBit (bit - 1)
    · rw [if_pos ((and_one_shiftLeft_ne_zero _ _).2 hset), if_pos hset]
    · rw [if_neg (fun hc => hset ((and_one_shiftLeft_ne_zero _ _).1 hc)), if_neg hset]
  have halpha : (sliceBitPlane src bit).data (4 * p + 3) = 255 := by
    simp only [sliceBitPlane]
    rw [if_pos (hj 3 (by omega)), if_pos (by rw [hmod 3 (by omega)])]
  refine ⟨⟨hrgb, halpha⟩, fun h8 => ?_⟩
  obtain ⟨hg0, hg255⟩ := grayAt_bounds src (4 * p) hbytes
  have hfl0 : 0 ≤ ⌊grayAt src (4 * p)⌋ := Int.le_floor.2 (by exact_mod_cast hg0)
  have hfl255 : ⌊grayAt src (4 * p)⌋ ≤ 255 := by
    have := Int.floor_le_floor (α := ℚ) hg255
    simpa using this
  have hm256 : ⌊grayAt src (4 * p)⌋.toNat < 256 := by omega
  have h0 := hrgb 0 (by omega)
  rw [show 4 * p + 0 = 4 * p from by omega] at h0
  rw [h0, h8]
  constructor
  · intro hw
    by_cases hset : (⌊grayAt src (4 * p)⌋.toNat).testBit (8 - 1)
    · have h128 : 128 ≤ ⌊grayAt src (4 * p)⌋.toNat :=
        (testBit_seven_iff _ hm256).1 hset
      have : (128 : ℤ) ≤ ⌊grayAt src (4 * p)⌋ := by omega
      calc (128 : ℚ) = ((128 : ℤ) : ℚ) := by norm_num
        _ ≤ ⌊grayAt src (4 * p)⌋ := by exact_mod_cast this
        _ ≤ grayAt src (4 * p) := Int.floor_le _
    · rw [if_neg hset] at hw; cases hw
  · intro hge
    have h128i : (128 : ℤ) ≤ ⌊grayAt src (4 * p)⌋ := Int.le_floor.2 (by exact_mod_cast hge)
    have h128 : 128 ≤ ⌊grayAt src (4 * p)⌋.toNat := by omega
    rw [if_pos ((testBit_seven_iff _ hm256).2 h128)]

/-- Witness for C7: a uniform luma-200 pixel with `bit = 8`. -/
theorem sliceBitPlane_formula_witness :
    (∀ i, (uniformImage 1 1 200 200 200 255).data i ≤ 255) ∧
    (1 : ℕ) ≤ 8 ∧ (8 : ℕ) ≤ 8 ∧
    (0 : ℕ) < (uniformImage 1 1 200 200 200 255).width *
      (uniformImage 1 1 200 200 200 255).height ∧
    (((∀ ch < 3, (sliceBitPlane (uniformImage 1 1 200 200 200 255) 8).data (4 * 0 + ch) =
        if (⌊grayAt (uniformImage 1 1 200 200 200 255) (4 * 0)⌋.toNat).testBit (8 - 1)
        then 255 else 0) ∧
      (sliceBitPlane (uniformImage 1 1 200 200 200 255) 8).data (4 * 0 + 3) = 255) ∧
    ((8 : ℕ) = 8 → ((sliceBitPlane (uniformImage 1 1 200 200 200 255) 8).data (4 * 0) = 255 ↔
      128 ≤ grayAt (uniformImage 1 1 200 200 200 255) (4 * 0)))) := by
  have hb : ∀ i, (uniformImage 1 1 200 200 200 255).data i ≤ 255 := by
    intro i
    simp only [uniformImage]
    split
    · split <;> omega
    · omega
  have hp : (0 : ℕ) < (uniformImage 1 1 200 200 200 255).width *
      (uniformImage 1 1 200 200 200 255).height := by norm_num [uniformImage]
  exact ⟨hb, by norm_num, by norm_num, hp,
    sliceBitPlane_formula (uniformImage 1 1 200 200 200 255) hb 8
      (by norm_num) (by norm_num) 0 hp⟩

/-- C8: erosion with radius at least 1 removes a single bright pixel on an
otherwise black field (every colour byte of the result is 0), and dilation
of an image whose colour bytes are all black stays black. -/
theorem applyMorphology_extremes :
    (∀ w h x0 y0 r g b radius j : ℕ,
      0 < w → 0 < h → 2 ≤ w * h → x0 < w → y0 < h → 1 ≤ radius →
      j < 4 * w * h → j % 4 ≠ 3 →
      (applyMorphology (singleBright w h x0 y0 r g b) .EROSION radius).data j = 0) ∧
    (∀ (src : ImageData) (radius j : ℕ),
      (∀ i, i % 4 ≠ 3 → src.data i = 0) →
      j < 4 * src.width * src.height → j % 4 ≠ 3 →
      (applyMorphology src .DILATION radius).data j = 0) := by
  constructor
  · intro w h x0 y0 r g b radius j hw hh hwh hx0 hy0 hrad hj hch
    have hch3 : j % 4 < 3 := by omega
    obtain ⟨hx, hy, -⟩ := byte_decode hj
    have key : ∀ px py kx ky : ℕ, px < w → py < h →
        kx < 2 * radius + 1 → ky < 2 * radius + 1 →
        ((j / 4 % w : ℕ) : ℤ) + kx - radius = px →
        ((j / 4 / w : ℕ) : ℤ) + ky - radius = py →
        py * w + px ≠ y0 * w + x0 →
        morphChannel (singleBright w h x0 y0 r g b) .EROSION radius
          (j / 4 % w) (j / 4 / w) (j % 4) = 0 := by
      intro px py kx ky h1 h2 h3 h4 h5 h6 h7
      have hle := morphChannel_erosion_le (singleBright w h x0 y0 r g b) radius
        (j / 4 % w) (j / 4 / w) (j % 4) px py kx ky h1 h2 h3 h4 h5 h6
      rw [show (singleBright w h x0 y0 r g b).width = w from rfl] at hle
      have hv := singleBright_data_ne w h x0 y0 r g b px py (j % 4) h1 h2 hch3 h7
      omega
    have hz : morphChannel (singleBright w h x0 y0 r g b) .EROSION radius
        (j / 4 % w) (j / 4 / w) (j % 4) = 0 := by
      by_cases hpix : j / 4 / w * w + j / 4 % w = y0 * w + x0
      · have hxx : j / 4 % w = x0 := by
          have e1 := (pix_decode (j / 4 / w) hx).1
          have e2 := (pix_decode y0 hx0).1
          rw [hpix] at e1
          omega
        have hyy : j / 4 / w = y0 := by
          have e1 := (pix_decode (j / 4 / w) hx).2
          have e2 := (pix_decode y0 hx0).2
          rw [hpix] at e1
          omega
        have hwh2 : 2 ≤ w ∨ 2 ≤ h := by
          rcases Nat.lt_or_ge w 2 with h1 | h1
          · right
            have hw1 : w = 1 := by omega
            rw [hw1, one_mul] at hwh
            omega
          · left; exact h1
        rcases hwh2 with hw2 | hh2
        · by_cases hxe : x0 + 1 < w
          · exact key (x0 + 1) y0 (radius + 1) radius hxe hy0 (by omega) (by omega)
              (by rw [hxx]; push_cast; ring) (by rw [hyy]; push_cast; ring) (by omega)
          · exact key (x0 - 1) y0 (radius - 1) radius (by omega) hy0 (by omega) (by omega)
              (by rw [hxx]; omega) (by rw [hyy]; push_cast; ring) (by omega)
        · by_cases hye : y0 + 1 < h
          · exact key x0 (y0 + 1) radius (radius + 1) hx0 hye (by omega) (by omega)
              (by rw [hxx]; push_cast; ring) (by rw [hyy]; push_cast; ring)
              (by
                have : (y0 + 1) * w = y0 * w + w := by ring
                omega)
          · exact key x0 (y0 - 1) radius (radius - 1) hx0 (by omega) (by omega) (by omega)
              (by rw [hxx]; push_cast; ring) (by rw [hyy]; omega)
              (by
                have hy1 : y0 - 1 < y0 := by omega
                have : (y0 - 1) * w < y0 * w := (Nat.mul_lt_mul_right hw).2 hy1
                omega)
      · exact key (j / 4 % w) (j / 4 / w) radius radius hx hy (by omega) (by omega)
          (by push_cast; ring) (by push_cast; ring) hpix
    simp only [applyMorphology]
    rw [show (singleBright w h x0 y0 r g b).width = w from rfl,
      show (singleBright w h x0 y0 r g b).height = h from rfl, if_pos hj, if_neg hch, hz]
    simp
  · intro src radius j hblack hj hch
    have hch3 : j % 4 < 3 := by omega
    simp only [applyMorphology]
    rw [if_pos hj, if_neg hch,
      morphChannel_dilation_zero src radius (j / 4 % src.width) (j / 4 / src.width)
        (j % 4) hblack hch3]
    simp

/-- Witness for C8: a bright pixel at the origin of a 2×1 field is eroded
to black, and dilation of an all-black 2×1 image stays black, both read at
byte 0. -/
theorem applyMorphology_extremes_witness :
    ((0 : ℕ) < 2 ∧ (0 : ℕ) < 1 ∧ (2 : ℕ) ≤ 2 * 1 ∧ (0 : ℕ) < 2 ∧ (0 : ℕ) < 1 ∧
      (1 : ℕ) ≤ 1 ∧ (0 : ℕ) < 4 * 2 * 1 ∧ (0 : ℕ) % 4 ≠ 3 ∧
      (applyMorphology (singleBright 2 1 0 0 255 255 255) .EROSION 1).data 0 = 0) ∧
    ((∀ i, i % 4 ≠ 3 → (uniformImage 2 1 0 0 0 255).data i = 0) ∧
      (0 : ℕ) < 4 * (uniformImage 2 1 0 0 0 255).width * (uniformImage 2 1 0 0 0 255).height ∧
      (applyMorphology (uniformImage 2 1 0 0 0 255) .DILATION 1).data 0 = 0) := by
  have hblack : ∀ i, i % 4 ≠ 3 → (uniformImage 2 1 0 0 0 255).data i = 0 := by
    intro i hi
    have h4 : i % 4 = 0 ∨ i % 4 = 1 ∨ i % 4 = 2 := by omega
    simp only [uniformImage]
    rcases h4 with h | h | h <;> simp [h]
  have hj2 : (0 : ℕ) < 4 * (uniformImage 2 1 0 0 0 255).width *
      (uniformImage 2 1 0 0 0 255).height := by norm_num [uniformImage]
  refine ⟨⟨by norm_num, by norm_num, by norm_num, by norm_num, by norm_num,
    by norm_num, by norm_num, by norm_num, ?_⟩, hblack, hj2, ?_⟩
  · exact applyMorphology_extremes.1 2 1 0 0 255 255 255 1 0 (by norm_num) (by norm_num)
      (by norm_num) (by norm_num) (by norm_num) (by norm_num) (by norm_num) (by norm_num)
  · exact applyMorphology_extremes.2 (uniformImage 2 1 0 0 0 255) 1 0 hblack hj2
      (by norm_num)

/-- C10: for every input image, `applyMorphology` (either type, any
radius) and `applyColorSpace` (every channel other than RGB) keep the
input's width and height and set alpha to 255 at every pixel. -/
theorem morphology_colorSpace_dims_alpha (img : ImageData) (t : MorphologyType)
    (radius : ℕ) (channel : ColorChannel) (hch : channel ≠ ColorChannel.RGB) :
    ((applyMorphology img t radius).width = img.width ∧
     (applyMorphology img t radius).height = img.height ∧
     ∀ j < 4 * img.width * img.height, j % 4 = 3 →
       (applyMorphology img t radius).data j = 255) ∧
    ((applyColorSpace img channel).width = img.width ∧
     (applyColorSpace img channel).height = img.height ∧
     ∀ j < 4 * img.width * img.height, j % 4 = 3 →
       (applyColorSpace img channel).data j = 255) := by
  constructor
  · refine ⟨rfl, rfl, fun j hj hch3 => ?_⟩
    simp [applyMorphology, hj, hch3]
  · unfold applyColorSpace
    rw [if_neg hch]
    refine ⟨rfl, rfl, fun j hj hch3 => ?_⟩
    simp [hj, hch3]

/-- Witness for C10: erosion with radius 0 and grayscale decomposition of
a 1×1 image keep its dimensions and set alpha 255. -/
theorem morphology_colorSpace_dims_alpha_witness :
    ColorChannel.GRAYSCALE ≠ ColorChannel.RGB ∧
    (((applyMorphology (uniformImage 1 1 1 2 3 4) .EROSION 0).width =
        (uniformImage 1 1 1 2 3 4).width ∧
      (applyMorphology (uniformImage 1 1 1 2 3 4) .EROSION 0).height =
        (uniformImage 1 1 1 2 3 4).height ∧
      ∀ j < 4 * (uniformImage 1 1 1 2 3 4).width * (uniformImage 1 1 1 2 3 4).height,
        j % 4 = 3 → (applyMorphology (uniformImage 1 1 1 2 3 4) .EROSION 0).data j = 255) ∧
     ((applyColorSpace (uniformImage 1 1 1 2 3 4) .GRAYSCALE).width =
        (uniformImage 1 1 1 2 3 4).width ∧
      (applyColorSpace (uniformImage 1 1 1 2 3 4) .GRAYSCALE).height =
        (uniformImage 1 1 1 2 3 4).height ∧
      ∀ j < 4 * (uniformImage 1 1 1 2 3 4).width * (uniformImage 1 1 1 2 3 4).height,
        j % 4 = 3 → (applyColorSpace (uniformImage 1 1 1 2 3 4) .GRAYSCALE).data j = 255)) :=
  ⟨by decide,
   morphology_colorSpace_dims_alpha (uniformImage 1 1 1 2 3 4) .EROSION 0 .GRAYSCALE
     (by decide)⟩

end VisionLab
